import Mathlib

/-!
A shallow embedding of the `bytecode_vm` stack virtual machine (`src/lib.rs`).

Bytes are modelled as `Nat` (values intended `< 256`), byte streams as
`List Nat`, `u64` values as `Nat` with wrap-around written explicitly as
`% 2 ^ 64` where the Rust `u64` type truncates.  Rust release-mode semantics
are used for integer arithmetic (wrapping on overflow); out-of-bounds
indexing and `Option.unwrap` on `None`, which abort in every Rust build
profile, are modelled by the distinguished outcome `panicked`.
-/

namespace BytecodeVM

/-- The closed instruction set, one constructor per opcode
(`enum Instruction` in `src/lib.rs`).  The `OutStr` operand is a Rust
`String`, modelled as its list of UTF-8 bytes. -/
inductive Instruction where
  | Push (a : Nat)
  | Out (a : Nat)
  | In
  | OutStr (s : List Nat)
  | Copy (a : Nat)
  | Add (a b : Nat)
  | Gt (a b c : Nat)
  | Eq (a b c : Nat)
  | Jmp (a : Nat)
  | Dec (a : Nat)
  | Inc (a : Nat)
  | InByte
  | OutByte (a : Nat)
  deriving DecidableEq, Repr

/-- `n.to_le_bytes()` generalised: the `k` little-endian base-256 digits of
`n` (for `k = 8` this is exactly the Rust `u64::to_le_bytes`). -/
def toLE : Nat → Nat → List Nat
  | 0, _ => []
  | k + 1, n => n % 256 :: toLE k (n / 256)

/-- `u64::from_le_bytes`: read a little-endian byte list back as a number. -/
def fromLEBytes (bs : List Nat) : Nat :=
  bs.foldr (fun b acc => acc * 256 + b) 0

/-- Decoder errors: `eof` models `io::ErrorKind::UnexpectedEof` (from
`read_exact` hitting end of stream), `invalidData` models
`io::ErrorKind::InvalidData` (unknown tag byte, or a string payload that is
not valid UTF-8). -/
inductive DecErr where
  | eof
  | invalidData
  deriving DecidableEq, Repr

/-- `read_exact` into a `k`-byte buffer: succeeds returning the first `k`
bytes and the rest of the stream, or fails with `UnexpectedEof`. -/
def readExact (k : Nat) (l : List Nat) : Except DecErr (List Nat × List Nat) :=
  if k ≤ l.length then .ok (l.take k, l.drop k) else .error .eof

/-- Read one little-endian `u64` field (8 bytes through `read_exact`). -/
def readU64 (l : List Nat) : Except DecErr (Nat × List Nat) :=
  match readExact 8 l with
  | .ok (b, r) => .ok (fromLEBytes b, r)
  | .error e => .error e

/-- Strict UTF-8 validity of a byte list, as checked by Rust's
`String::from_utf8` (continuation bytes in `80..BF`, no overlong forms, no
surrogates, maximum scalar value `U+10FFFF`). -/
def utf8Valid : List Nat → Bool
  | [] => true
  | b :: rest =>
    if b < 0x80 then utf8Valid rest
    else if 0xC2 ≤ b ∧ b ≤ 0xDF then
      match rest with
      | c1 :: r => decide (0x80 ≤ c1 ∧ c1 ≤ 0xBF) && utf8Valid r
      | [] => false
    else if b = 0xE0 then
      match rest with
      | c1 :: c2 :: r =>
        decide (0xA0 ≤ c1 ∧ c1 ≤ 0xBF) && decide (0x80 ≤ c2 ∧ c2 ≤ 0xBF) && utf8Valid r
      | _ => false
    else if (0xE1 ≤ b ∧ b ≤ 0xEC) ∨ b = 0xEE ∨ b = 0xEF then
      match rest with
      | c1 :: c2 :: r =>
        decide (0x80 ≤ c1 ∧ c1 ≤ 0xBF) && decide (0x80 ≤ c2 ∧ c2 ≤ 0xBF) && utf8Valid r
      | _ => false
    else if b = 0xED then
      match rest with
      | c1 :: c2 :: r =>
        decide (0x80 ≤ c1 ∧ c1 ≤ 0x9F) && decide (0x80 ≤ c2 ∧ c2 ≤ 0xBF) && utf8Valid r
      | _ => false
    else if b = 0xF0 then
      match rest with
      | c1 :: c2 :: c3 :: r =>
        decide (0x90 ≤ c1 ∧ c1 ≤ 0xBF) && decide (0x80 ≤ c2 ∧ c2 ≤ 0xBF) &&
          decide (0x80 ≤ c3 ∧ c3 ≤ 0xBF) && utf8Valid r
      | _ => false
    else if 0xF1 ≤ b ∧ b ≤ 0xF3 then
      match rest with
      | c1 :: c2 :: c3 :: r =>
        decide (0x80 ≤ c1 ∧ c1 ≤ 0xBF) && decide (0x80 ≤ c2 ∧ c2 ≤ 0xBF) &&
          decide (0x80 ≤ c3 ∧ c3 ≤ 0xBF) && utf8Valid r
      | _ => false
    else if b = 0xF4 then
      match rest with
      | c1 :: c2 :: c3 :: r =>
        decide (0x80 ≤ c1 ∧ c1 ≤ 0x8F) && decide (0x80 ≤ c2 ∧ c2 ≤ 0xBF) &&
          decide (0x80 ≤ c3 ∧ c3 ≤ 0xBF) && utf8Valid r
      | _ => false
    else false

/-- `serialize_string`: an 8-byte little-endian length followed by the raw
bytes of the string (`src/lib.rs`, `fn serialize_string`). -/
def serializeString (s : List Nat) : List Nat :=
  toLE 8 s.length ++ s

/-- `deserialize_string`: read an 8-byte length, read that many raw bytes,
then validate them as UTF-8 (`String::from_utf8` failure is mapped to
`InvalidData`, as in `fn deserialize_string`). -/
def deserializeString (l : List Nat) : Except DecErr (List Nat × List Nat) :=
  match readU64 l with
  | .error e => .error e
  | .ok (len, r) =>
    match readExact len r with
    | .error e => .error e
    | .ok (s, rest) => if utf8Valid s then .ok (s, rest) else .error .invalidData

/-- `Instruction::serialize`: one tag byte followed by the operands as
little-endian 8-byte fields (the string operand through `serializeString`). -/
def Instruction.serialize : Instruction → List Nat
  | .Push a => 0 :: toLE 8 a
  | .Out a => 1 :: toLE 8 a
  | .In => [2]
  | .OutStr s => 3 :: serializeString s
  | .Copy a => 4 :: toLE 8 a
  | .Add a b => 5 :: (toLE 8 a ++ toLE 8 b)
  | .Gt a b c => 6 :: (toLE 8 a ++ toLE 8 b ++ toLE 8 c)
  | .Eq a b c => 7 :: (toLE 8 a ++ toLE 8 b ++ toLE 8 c)
  | .Jmp a => 8 :: toLE 8 a
  | .Dec a => 9 :: toLE 8 a
  | .Inc a => 10 :: toLE 8 a
  | .InByte => [11]
  | .OutByte a => 12 :: toLE 8 a

/-- `Instruction::deserialize`: read the tag byte, dispatch on it, read the
fixed operand fields; an unrecognized tag is `InvalidData` ("invalid tag"). -/
def Instruction.deserialize (l : List Nat) : Except DecErr (Instruction × List Nat) :=
  match l with
  | [] => .error .eof
  | tag :: r =>
    match tag with
    | 0 =>
      match readU64 r with
      | .ok (a, r) => .ok (.Push a, r)
      | .error e => .error e
    | 1 =>
      match readU64 r with
      | .ok (a, r) => .ok (.Out a, r)
      | .error e => .error e
    | 2 => .ok (.In, r)
    | 3 =>
      match deserializeString r with
      | .ok (s, r) => .ok (.OutStr s, r)
      | .error e => .error e
    | 4 =>
      match readU64 r with
      | .ok (a, r) => .ok (.Copy a, r)
      | .error e => .error e
    | 5 =>
      match readU64 r with
      | .ok (a, r) =>
        match readU64 r with
        | .ok (b, r) => .ok (.Add a b, r)
        | .error e => .error e
      | .error e => .error e
    | 6 =>
      match readU64 r with
      | .ok (a, r) =>
        match readU64 r with
        | .ok (b, r) =>
          match readU64 r with
          | .ok (c, r) => .ok (.Gt a b c, r)
          | .error e => .error e
        | .error e => .error e
      | .error e => .error e
    | 7 =>
      match readU64 r with
      | .ok (a, r) =>
        match readU64 r with
        | .ok (b, r) =>
          match readU64 r with
          | .ok (c, r) => .ok (.Eq a b c, r)
          | .error e => .error e
        | .error e => .error e
      | .error e => .error e
    | 8 =>
      match readU64 r with
      | .ok (a, r) => .ok (.Jmp a, r)
      | .error e => .error e
    | 9 =>
      match readU64 r with
      | .ok (a, r) => .ok (.Dec a, r)
      | .error e => .error e
    | 10 =>
      match readU64 r with
      | .ok (a, r) => .ok (.Inc a, r)
      | .error e => .error e
    | 11 => .ok (.InByte, r)
    | 12 =>
      match readU64 r with
      | .ok (a, r) => .ok (.OutByte a, r)
      | .error e => .error e
    | _ => .error .invalidData

/-- Well-formedness of an instruction as a value of the Rust type: numeric
operands fit in `u64` and the string operand is a valid UTF-8 `String`
(these hold by construction for every Rust `Instruction` value). -/
def Instruction.valid : Instruction → Prop
  | .Push a => a < 2 ^ 64
  | .Out a => a < 2 ^ 64
  | .In => True
  | .OutStr s => utf8Valid s = true ∧ s.length < 2 ^ 64
  | .Copy a => a < 2 ^ 64
  | .Add a b => a < 2 ^ 64 ∧ b < 2 ^ 64
  | .Gt a b c => a < 2 ^ 64 ∧ b < 2 ^ 64 ∧ c < 2 ^ 64
  | .Eq a b c => a < 2 ^ 64 ∧ b < 2 ^ 64 ∧ c < 2 ^ 64
  | .Jmp a => a < 2 ^ 64
  | .Dec a => a < 2 ^ 64
  | .Inc a => a < 2 ^ 64
  | .InByte => True
  | .OutByte a => a < 2 ^ 64

instance : DecidablePred Instruction.valid := by
  intro i
  cases i <;> simp [Instruction.valid] <;> infer_instance



/-- `deserialize_code`: repeatedly decode one record; `UnexpectedEof` ends the
loop successfully with the instructions decoded so far; any other error is
returned.  The loop terminates because every decoded record consumes at
least its tag byte. -/
def deserializeCode (l : List Nat) : Except DecErr (List Instruction) :=
  match h : Instruction.deserialize l with
  | .ok (i, rest) =>
    match deserializeCode rest with
    | .ok instrs => .ok (i :: instrs)
    | .error e => .error e
  | .error .eof => .ok []
  | .error .invalidData => .error .invalidData
termination_by l.length
decreasing_by
  have hU : ∀ (m : List Nat) (a : Nat) (m' : List Nat),
      readU64 m = Except.ok (a, m') → m'.length + 8 ≤ m.length := by
    intro m a m' hh
    simp only [readU64, readExact] at hh
    by_cases hm : 8 ≤ m.length
    · rw [if_pos hm] at hh
      simp only [Except.ok.injEq, Prod.mk.injEq] at hh
      obtain ⟨-, h2⟩ := hh
      subst h2
      simp only [List.length_drop]
      omega
    · rw [if_neg hm] at hh
      simp at hh
  have hS : ∀ (m s m' : List Nat),
      deserializeString m = Except.ok (s, m') → m'.length ≤ m.length := by
    intro m s m' hh
    simp only [deserializeString] at hh
    rcases hU8 : readU64 m with e | ⟨len, m1⟩ <;> rw [hU8] at hh
    · simp at hh
    · have h8 := hU m len m1 hU8
      simp only [readExact] at hh
      by_cases hl : len ≤ m1.length
      · rw [if_pos hl] at hh
        by_cases hv : utf8Valid (List.take len m1) = true
        · simp only [hv, if_true, Except.ok.injEq, Prod.mk.injEq] at hh
          obtain ⟨-, h2⟩ := hh
          subst h2
          simp only [List.length_drop]
          omega
        · simp [hv] at hh
      · rw [if_neg hl] at hh
        simp at hh
  rcases l with _ | ⟨tag, r⟩
  · simp [Instruction.deserialize] at h
  · have hr : rest.length ≤ r.length := by
      simp only [Instruction.deserialize] at h
      split at h
      · rcases hU1 : readU64 r with e | ⟨a1, r1⟩ <;> rw [hU1] at h
        · simp at h
        · simp only [Except.ok.injEq, Prod.mk.injEq] at h
          obtain ⟨-, h2⟩ := h
          subst h2
          have k1 := hU r a1 r1 hU1
          omega
      · rcases hU1 : readU64 r with e | ⟨a1, r1⟩ <;> rw [hU1] at h
        · simp at h
        · simp only [Except.ok.injEq, Prod.mk.injEq] at h
          obtain ⟨-, h2⟩ := h
          subst h2
          have k1 := hU r a1 r1 hU1
          omega
      · simp only [Except.ok.injEq, Prod.mk.injEq] at h
        obtain ⟨-, h2⟩ := h
        subst h2
        omega
      · rcases hDSr : deserializeString r with e | ⟨s1, r1⟩ <;> rw [hDSr] at h
        · simp at h
        · simp only [Except.ok.injEq, Prod.mk.injEq] at h
          obtain ⟨-, h2⟩ := h
          subst h2
          exact hS r s1 r1 hDSr
      · rcases hU1 : readU64 r with e | ⟨a1, r1⟩ <;> rw [hU1] at h
        · simp at h
        · simp only [Except.ok.injEq, Prod.mk.injEq] at h
          obtain ⟨-, h2⟩ := h
          subst h2
          have k1 := hU r a1 r1 hU1
          omega
      · rcases hU1 : readU64 r with e | ⟨a1, r1⟩ <;> rw [hU1] at h
        · simp at h
        · simp only [Except.ok.injEq, Prod.mk.injEq] at h
          rcases hU2 : readU64 r1 with e | ⟨a2, r2⟩ <;> rw [hU2] at h
          · simp at h
          · simp only [Except.ok.injEq, Prod.mk.injEq] at h
            obtain ⟨-, h2⟩ := h
            subst h2
            have k1 := hU r a1 r1 hU1
            have k2 := hU r1 a2 r2 hU2
            omega
      · rcases hU1 : readU64 r with e | ⟨a1, r1⟩ <;> rw [hU1] at h
        · simp at h
        · simp only [Except.ok.injEq, Prod.mk.injEq] at h
          rcases hU2 : readU64 r1 with e | ⟨a2, r2⟩ <;> rw [hU2] at h
          · simp at h
          · simp only [Except.ok.injEq, Prod.mk.injEq] at h
            rcases hU3 : readU64 r2 with e | ⟨a3, r3⟩ <;> rw [hU3] at h
            · simp at h
            · simp only [Except.ok.injEq, Prod.mk.injEq] at h
              obtain ⟨-, h2⟩ := h
              subst h2
              have k1 := hU r a1 r1 hU1
              have k2 := hU r1 a2 r2 hU2
              have k3 := hU r2 a3 r3 hU3
              omega
      · rcases hU1 : readU64 r with e | ⟨a1, r1⟩ <;> rw [hU1] at h
        · simp at h
        · simp only [Except.ok.injEq, Prod.mk.injEq] at h
          rcases hU2 : readU64 r1 with e | ⟨a2, r2⟩ <;> rw [hU2] at h
          · simp at h
          · simp only [Except.ok.injEq, Prod.mk.injEq] at h
            rcases hU3 : readU64 r2 with e | ⟨a3, r3⟩ <;> rw [hU3] at h
            · simp at h
            · simp only [Except.ok.injEq, Prod.mk.injEq] at h
              obtain ⟨-, h2⟩ := h
              subst h2
              have k1 := hU r a1 r1 hU1
              have k2 := hU r1 a2 r2 hU2
              have k3 := hU r2 a3 r3 hU3
              omega
      · rcases hU1 : readU64 r with e | ⟨a1, r1⟩ <;> rw [hU1] at h
        · simp at h
        · simp only [Except.ok.injEq, Prod.mk.injEq] at h
          obtain ⟨-, h2⟩ := h
          subst h2
          have k1 := hU r a1 r1 hU1
          omega
      · rcases hU1 : readU64 r with e | ⟨a1, r1⟩ <;> rw [hU1] at h
        · simp at h
        · simp only [Except.ok.injEq, Prod.mk.injEq] at h
          obtain ⟨-, h2⟩ := h
          subst h2
          have k1 := hU r a1 r1 hU1
          omega
      · rcases hU1 : readU64 r with e | ⟨a1, r1⟩ <;> rw [hU1] at h
        · simp at h
        · simp only [Except.ok.injEq, Prod.mk.injEq] at h
          obtain ⟨-, h2⟩ := h
          subst h2
          have k1 := hU r a1 r1 hU1
          omega
      · simp only [Except.ok.injEq, Prod.mk.injEq] at h
        obtain ⟨-, h2⟩ := h
        subst h2
        omega
      · rcases hU1 : readU64 r with e | ⟨a1, r1⟩ <;> rw [hU1] at h
        · simp at h
        · simp only [Except.ok.injEq, Prod.mk.injEq] at h
          obtain ⟨-, h2⟩ := h
          subst h2
          have k1 := hU r a1 r1 hU1
          omega
      · simp at h
    simp only [List.length_cons]
    omega

/-- `serialize_code`: the concatenation of each instruction's record, in
order. -/
def serializeCode : List Instruction → List Nat
  | [] => []
  | i :: rest => i.serialize ++ serializeCode rest

/-- One step of `BufRead::read_line`: the bytes consumed from the stream (up
to and including the first `\n`, or everything to end of stream) paired
with the remaining stream. -/
def readLineBytes : List Nat → List Nat × List Nat
  | [] => ([], [])
  | b :: r =>
    if b = 10 then ([10], r)
    else (b :: (readLineBytes r).1, (readLineBytes r).2)

/-- The trailing-newline stripping done by `BufRead::lines`: drop a final
`\n`, and then a final `\r` only when that `\n` was present. -/
def stripLineEnding (l : List Nat) : List Nat :=
  if l.getLast? = some 10 then
    let l2 := l.dropLast
    if l2.getLast? = some 13 then l2.dropLast else l2
  else l

/-- Accumulating digit parser over ASCII bytes, `none` on any non-digit. -/
def digitsToNat : List Nat → Nat → Option Nat
  | [], acc => some acc
  | c :: r, acc =>
    if 0x30 ≤ c ∧ c ≤ 0x39 then digitsToNat r (acc * 10 + (c - 0x30)) else none

/-- Rust `u64::from_str` on the bytes of a line: an optional single leading
`+`, then one or more ASCII digits, and the value must fit in `u64`
(`PosOverflow` otherwise); any other shape is a parse error (`none`). -/
def parseU64 (s : List Nat) : Option Nat :=
  let t := match s with
    | 0x2B :: r => r
    | _ => s
  match t with
  | [] => none
  | _ =>
    match digitsToNat t 0 with
    | some v => if v < 2 ^ 64 then some v else none
    | none => none

/-- Decimal ASCII rendering of a number, most significant digit first, as
printed by `writeln!` for a `u64` (the first argument is fuel, always
sufficient at `n + 1`). -/
def decBytesAux : Nat → Nat → List Nat
  | 0, _ => []
  | fuel + 1, n =>
    if n < 10 then [0x30 + n] else decBytesAux fuel (n / 10) ++ [0x30 + n % 10]

/-- Decimal ASCII bytes of `n`. -/
def decBytes (n : Nat) : List Nat := decBytesAux (n + 1) n

/-- Outcome of executing one instruction (`Instruction::execute` returns
`io::Result<usize>`, but may also abort the process): `ok` carries the new
stack, program counter, remaining input, and the bytes appended to the
output; `eofErr` is an `UnexpectedEof` `io::Error` propagated with `?`
(only `InByte` at end of input); `ioErr` is any other `io::Error`
(`InvalidData` from a non-UTF-8 input line); `panicked` is a Rust panic
(`unwrap` of `None` or of a failed parse or conversion, and out-of-bounds
stack indexing). -/
inductive ExecOut where
  | ok (stack : List Nat) (pc : Nat) (input : List Nat) (out : List Nat)
  | eofErr
  | ioErr
  | panicked
  deriving DecidableEq, Repr

/-- `Instruction::execute` from `src/lib.rs`.  The stack is a `Vec<u64>`
with the top at the end; operand offsets resolve against
`stack.len() - 1 - p`, which panics (in every profile, at the subtraction or
at the indexing) whenever `p ≥ stack.len()`.  Taken `Gt`/`Eq` branches and
`Jmp` return early with `pc` set to the target; every other successful path
falls through to `machine.pc += 1`. -/
def Instruction.execute (i : Instruction) (stack : List Nat) (pc : Nat) (input : List Nat) :
    ExecOut :=
  match i with
  | .Push value => .ok (stack ++ [value]) (pc + 1) input []
  | .In =>
    if (readLineBytes input).1 = [] then .panicked
    else if utf8Valid (readLineBytes input).1 then
      match parseU64 (stripLineEnding (readLineBytes input).1) with
      | some value => .ok (stack ++ [value]) (pc + 1) (readLineBytes input).2 []
      | none => .panicked
    else .ioErr
  | .Out p =>
    if p < stack.length then
      .ok stack (pc + 1) input (decBytes (stack.getD (stack.length - 1 - p) 0) ++ [10])
    else .panicked
  | .OutStr value => .ok stack (pc + 1) input (value ++ [10])
  | .Add a b =>
    if a < stack.length ∧ b < stack.length then
      let l := stack.length - 1 - a
      let r := stack.length - 1 - b
      let lv := stack.getD l 0
      let rv := stack.getD r 0
      let correct := if l < r then 1 else 0
      let s1 := stack.eraseIdx l
      if r - correct < s1.length then
        .ok (s1.eraseIdx (r - correct) ++ [(lv + rv) % 2 ^ 64]) (pc + 1) input []
      else .panicked
    else .panicked
  | .Copy p =>
    if p < stack.length then
      .ok (stack ++ [stack.getD (stack.length - 1 - p) 0]) (pc + 1) input []
    else .panicked
  | .Gt l r t =>
    if l < stack.length ∧ r < stack.length then
      if stack.getD (stack.length - 1 - l) 0 > stack.getD (stack.length - 1 - r) 0 then
        .ok stack t input []
      else .ok stack (pc + 1) input []
    else .panicked
  | .Eq l r t =>
    if l < stack.length ∧ r < stack.length then
      if stack.getD (stack.length - 1 - l) 0 = stack.getD (stack.length - 1 - r) 0 then
        .ok stack t input []
      else .ok stack (pc + 1) input []
    else .panicked
  | .Jmp t => .ok stack t input []
  | .Dec p =>
    if p < stack.length then
      let idx := stack.length - 1 - p
      .ok (stack.set idx ((stack.getD idx 0 + (2 ^ 64 - 1)) % 2 ^ 64)) (pc + 1) input []
    else .panicked
  | .Inc p =>
    if p < stack.length then
      let idx := stack.length - 1 - p
      .ok (stack.set idx ((stack.getD idx 0 + 1) % 2 ^ 64)) (pc + 1) input []
    else .panicked
  | .InByte =>
    match input with
    | [] => .eofErr
    | b :: rest => .ok (stack ++ [b]) (pc + 1) rest []
  | .OutByte p =>
    if p < stack.length then
      let v := stack.getD (stack.length - 1 - p) 0
      if v ≤ 255 then .ok stack (pc + 1) input [v] else .panicked
    else .panicked

/-- Outcome of `Machine::run`: a clean halt (`Ok(0)`) with the final machine
state and accumulated output, an `io::Error` returned to the caller, a
panic, or exhaustion of the step budget (`run` itself loops without bound). -/
inductive RunOut where
  | ok (stack : List Nat) (pc : Nat) (input : List Nat) (out : List Nat)
  | ioErr
  | panicked
  | fuelOut
  deriving DecidableEq, Repr

/-- `Machine::run`, stepped with explicit fuel: fetch `code[pc]` (a miss is
a clean halt), execute, treat an `UnexpectedEof` error as a clean halt
(`break`), return any other error, and loop. -/
def runFuel : Nat → List Instruction → List Nat → Nat → List Nat → List Nat → RunOut
  | 0, _, _, _, _, _ => .fuelOut
  | fuel + 1, code, stack, pc, input, out =>
    match code.get? pc with
    | none => .ok stack pc input out
    | some i =>
      match i.execute stack pc input with
      | .ok stack2 pc2 input2 out2 => runFuel fuel code stack2 pc2 input2 (out ++ out2)
      | .eofErr => .ok stack pc input out
      | .ioErr => .ioErr
      | .panicked => .panicked

/-- Claim-side characterization: the absolute target an instruction jumps
to, if any — `Jmp` always, `Gt`/`Eq` exactly when the comparison of the two
addressed values holds ("taken"); `none` for every other instruction or a
not-taken branch. -/
def branchTarget (i : Instruction) (stack : List Nat) : Option Nat :=
  match i with
  | .Jmp t => some t
  | .Gt l r t =>
    if stack.getD (stack.length - 1 - l) 0 > stack.getD (stack.length - 1 - r) 0 then
      some t
    else none
  | .Eq l r t =>
    if stack.getD (stack.length - 1 - l) 0 = stack.getD (stack.length - 1 - r) 0 then
      some t
    else none
  | _ => none

/-- Claim-side characterization of Add's removal discipline, in the spec's
words: remove the element at the lower absolute index first, then the one
at the other index adjusted down by one if it was the greater. -/
def removeTwoSpec (stack : List Nat) (l r : Nat) : List Nat :=
  (stack.eraseIdx (min l r)).eraseIdx (max l r - 1)

/-! ## Codec lemmas -/

theorem fromLEBytes_cons (b : Nat) (bs : List Nat) :
    fromLEBytes (b :: bs) = fromLEBytes bs * 256 + b := rfl

theorem toLE_length (k n : Nat) : (toLE k n).length = k := by
  induction k generalizing n with
  | zero => simp [toLE]
  | succ k ih => simp [toLE, ih]

theorem fromLE_toLE (k n : Nat) : fromLEBytes (toLE k n) = n % 256 ^ k := by
  induction k generalizing n with
  | zero => simp [toLE, fromLEBytes, Nat.mod_one]
  | succ k ih =>
    rw [toLE, fromLEBytes_cons, ih, pow_succ, Nat.mul_comm (256 ^ k) 256, Nat.mod_mul]
    omega

theorem take_append_of_length (l r : List Nat) (n : Nat) (h : l.length = n) :
    (l ++ r).take n = l := by
  subst h; exact List.take_left l r

theorem drop_append_of_length (l r : List Nat) (n : Nat) (h : l.length = n) :
    (l ++ r).drop n = r := by
  subst h; exact List.drop_left l r

theorem readU64_append (a : Nat) (rest : List Nat) (h : a < 2 ^ 64) :
    readU64 (toLE 8 a ++ rest) = .ok (a, rest) := by
  have hlen := toLE_length 8 a
  have h8 : 8 ≤ (toLE 8 a ++ rest).length := by simp [hlen]
  have hpow : (256 : Nat) ^ 8 = 2 ^ 64 := by norm_num
  rw [readU64, readExact, if_pos h8, take_append_of_length _ _ _ hlen,
    drop_append_of_length _ _ _ hlen]
  simp [fromLE_toLE] <;> omega

theorem deserializeString_append (s rest : List Nat) (hv : utf8Valid s = true)
    (hl : s.length < 2 ^ 64) :
    deserializeString (serializeString s ++ rest) = .ok (s, rest) := by
  rw [serializeString, List.append_assoc, deserializeString,
    readU64_append s.length (s ++ rest) hl]
  have hsl : s.length ≤ (s ++ rest).length := by simp
  simp [readExact, hsl, take_append_of_length s rest s.length rfl,
    drop_append_of_length s rest s.length rfl, hv]

theorem deserialize_serialize (i : Instruction) (rest : List Nat) (hv : i.valid) :
    Instruction.deserialize (i.serialize ++ rest) = .ok (i, rest) := by
  cases i with
  | Push a =>
    simp only [Instruction.valid] at hv
    simp [Instruction.serialize, Instruction.deserialize, readU64_append a rest hv]
  | Out a =>
    simp only [Instruction.valid] at hv
    simp [Instruction.serialize, Instruction.deserialize, readU64_append a rest hv]
  | In => simp [Instruction.serialize, Instruction.deserialize]
  | OutStr s =>
    obtain ⟨h1, h2⟩ := hv
    simp [Instruction.serialize, Instruction.deserialize, deserializeString_append s rest h1 h2]
  | Copy a =>
    simp only [Instruction.valid] at hv
    simp [Instruction.serialize, Instruction.deserialize, readU64_append a rest hv]
  | Add a b =>
    obtain ⟨h1, h2⟩ := hv
    simp [Instruction.serialize, Instruction.deserialize, List.append_assoc,
      readU64_append a (toLE 8 b ++ rest) h1, readU64_append b rest h2]
  | Gt a b c =>
    obtain ⟨h1, h2, h3⟩ := hv
    simp [Instruction.serialize, Instruction.deserialize, List.append_assoc,
      readU64_append a (toLE 8 b ++ (toLE 8 c ++ rest)) h1,
      readU64_append b (toLE 8 c ++ rest) h2, readU64_append c rest h3]
  | Eq a b c =>
    obtain ⟨h1, h2, h3⟩ := hv
    simp [Instruction.serialize, Instruction.deserialize, List.append_assoc,
      readU64_append a (toLE 8 b ++ (toLE 8 c ++ rest)) h1,
      readU64_append b (toLE 8 c ++ rest) h2, readU64_append c rest h3]
  | Jmp a =>
    simp only [Instruction.valid] at hv
    simp [Instruction.serialize, Instruction.deserialize, readU64_append a rest hv]
  | Dec a =>
    simp only [Instruction.valid] at hv
    simp [Instruction.serialize, Instruction.deserialize, readU64_append a rest hv]
  | Inc a =>
    simp only [Instruction.valid] at hv
    simp [Instruction.serialize, Instruction.deserialize, readU64_append a rest hv]
  | InByte => simp [Instruction.serialize, Instruction.deserialize]
  | OutByte a =>
    simp only [Instruction.valid] at hv
    simp [Instruction.serialize, Instruction.deserialize, readU64_append a rest hv]

theorem deserializeCode_ok (l : List Nat) (i : Instruction) (rest : List Nat)
    (h : Instruction.deserialize l = .ok (i, rest)) :
    deserializeCode l = match deserializeCode rest with
      | .ok instrs => .ok (i :: instrs)
      | .error e => .error e := by
  rw [deserializeCode]
  split
  · rename_i i2 rest2 heq
    rw [h] at heq
    injection heq with heq2
    obtain ⟨hh1, hh2⟩ := Prod.mk.inj heq2
    subst hh1
    subst hh2
    rfl
  · rename_i heq
    rw [h] at heq
    exact Except.noConfusion heq
  · rename_i heq
    rw [h] at heq
    exact Except.noConfusion heq

theorem deserializeCode_err (l : List Nat) (e : DecErr)
    (h : Instruction.deserialize l = .error e) :
    deserializeCode l = match e with
      | .eof => .ok []
      | .invalidData => .error .invalidData := by
  rw [deserializeCode]
  split
  · rename_i i2 rest2 heq
    rw [h] at heq
    exact Except.noConfusion heq
  · rename_i heq
    rw [h] at heq
    injection heq with heq2
    subst heq2
    rfl
  · rename_i heq
    rw [h] at heq
    injection heq with heq2
    subst heq2
    rfl

theorem readU64_len (m : List Nat) (a : Nat) (m2 : List Nat)
    (hh : readU64 m = Except.ok (a, m2)) : m2.length + 8 ≤ m.length := by
  simp only [readU64, readExact] at hh
  by_cases hm : 8 ≤ m.length
  · rw [if_pos hm] at hh
    simp only [Except.ok.injEq, Prod.mk.injEq] at hh
    obtain ⟨-, h2⟩ := hh
    subst h2
    simp only [List.length_drop]
    omega
  · rw [if_neg hm] at hh
    simp at hh

theorem deserializeString_len (m s m2 : List Nat)
    (hh : deserializeString m = Except.ok (s, m2)) : m2.length ≤ m.length := by
  simp only [deserializeString] at hh
  rcases hU8 : readU64 m with e | ⟨len, m1⟩ <;> rw [hU8] at hh
  · simp at hh
  · have h8 := readU64_len m len m1 hU8
    simp only [readExact] at hh
    by_cases hl : len ≤ m1.length
    · rw [if_pos hl] at hh
      by_cases hv : utf8Valid (List.take len m1) = true
      · simp only [hv, if_true, Except.ok.injEq, Prod.mk.injEq] at hh
        obtain ⟨-, h2⟩ := hh
        subst h2
        simp only [List.length_drop]
        omega
      · simp [hv] at hh
    · rw [if_neg hl] at hh
      simp at hh

theorem deserialize_length (l : List Nat) (i : Instruction) (rest : List Nat)
    (h : Instruction.deserialize l = Except.ok (i, rest)) : rest.length < l.length := by
  rcases l with _ | ⟨tag, r⟩
  · simp [Instruction.deserialize] at h
  · have hr : rest.length ≤ r.length := by
      simp only [Instruction.deserialize] at h
      split at h
      · rcases hU1 : readU64 r with e | ⟨a1, r1⟩ <;> rw [hU1] at h
        · simp at h
        · simp only [Except.ok.injEq, Prod.mk.injEq] at h
          obtain ⟨-, h2⟩ := h
          subst h2
          have k1 := readU64_len r a1 r1 hU1
          omega
      · rcases hU1 : readU64 r with e | ⟨a1, r1⟩ <;> rw [hU1] at h
        · simp at h
        · simp only [Except.ok.injEq, Prod.mk.injEq] at h
          obtain ⟨-, h2⟩ := h
          subst h2
          have k1 := readU64_len r a1 r1 hU1
          omega
      · simp only [Except.ok.injEq, Prod.mk.injEq] at h
        obtain ⟨-, h2⟩ := h
        subst h2
        omega
      · rcases hDSr : deserializeString r with e | ⟨s1, r1⟩ <;> rw [hDSr] at h
        · simp at h
        · simp only [Except.ok.injEq, Prod.mk.injEq] at h
          obtain ⟨-, h2⟩ := h
          subst h2
          exact deserializeString_len r s1 r1 hDSr
      · rcases hU1 : readU64 r with e | ⟨a1, r1⟩ <;> rw [hU1] at h
        · simp at h
        · simp only [Except.ok.injEq, Prod.mk.injEq] at h
          obtain ⟨-, h2⟩ := h
          subst h2
          have k1 := readU64_len r a1 r1 hU1
          omega
      · rcases hU1 : readU64 r with e | ⟨a1, r1⟩ <;> rw [hU1] at h
        · simp at h
        · simp only [Except.ok.injEq, Prod.mk.injEq] at h
          rcases hU2 : readU64 r1 with e | ⟨a2, r2⟩ <;> rw [hU2] at h
          · simp at h
          · simp only [Except.ok.injEq, Prod.mk.injEq] at h
            obtain ⟨-, h2⟩ := h
            subst h2
            have k1 := readU64_len r a1 r1 hU1
            have k2 := readU64_len r1 a2 r2 hU2
            omega
      · rcases hU1 : readU64 r with e | ⟨a1, r1⟩ <;> rw [hU1] at h
        · simp at h
        · simp only [Except.ok.injEq, Prod.mk.injEq] at h
          rcases hU2 : readU64 r1 with e | ⟨a2, r2⟩ <;> rw [hU2] at h
          · simp at h
          · simp only [Except.ok.injEq, Prod.mk.injEq] at h
            rcases hU3 : readU64 r2 with e | ⟨a3, r3⟩ <;> rw [hU3] at h
            · simp at h
            · simp only [Except.ok.injEq, Prod.mk.injEq] at h
              obtain ⟨-, h2⟩ := h
              subst h2
              have k1 := readU64_len r a1 r1 hU1
              have k2 := readU64_len r1 a2 r2 hU2
              have k3 := readU64_len r2 a3 r3 hU3
              omega
      · rcases hU1 : readU64 r with e | ⟨a1, r1⟩ <;> rw [hU1] at h
        · simp at h
        · simp only [Except.ok.injEq, Prod.mk.injEq] at h
          rcases hU2 : readU64 r1 with e | ⟨a2, r2⟩ <;> rw [hU2] at h
          · simp at h
          · simp only [Except.ok.injEq, Prod.mk.injEq] at h
            rcases hU3 : readU64 r2 with e | ⟨a3, r3⟩ <;> rw [hU3] at h
            · simp at h
            · simp only [Except.ok.injEq, Prod.mk.injEq] at h
              obtain ⟨-, h2⟩ := h
              subst h2
              have k1 := readU64_len r a1 r1 hU1
              have k2 := readU64_len r1 a2 r2 hU2
              have k3 := readU64_len r2 a3 r3 hU3
              omega
      · rcases hU1 : readU64 r with e | ⟨a1, r1⟩ <;> rw [hU1] at h
        · simp at h
        · simp only [Except.ok.injEq, Prod.mk.injEq] at h
          obtain ⟨-, h2⟩ := h
          subst h2
          have k1 := readU64_len r a1 r1 hU1
          omega
      · rcases hU1 : readU64 r with e | ⟨a1, r1⟩ <;> rw [hU1] at h
        · simp at h
        · simp only [Except.ok.injEq, Prod.mk.injEq] at h
          obtain ⟨-, h2⟩ := h
          subst h2
          have k1 := readU64_len r a1 r1 hU1
          omega
      · rcases hU1 : readU64 r with e | ⟨a1, r1⟩ <;> rw [hU1] at h
        · simp at h
        · simp only [Except.ok.injEq, Prod.mk.injEq] at h
          obtain ⟨-, h2⟩ := h
          subst h2
          have k1 := readU64_len r a1 r1 hU1
          omega
      · simp only [Except.ok.injEq, Prod.mk.injEq] at h
        obtain ⟨-, h2⟩ := h
        subst h2
        omega
      · rcases hU1 : readU64 r with e | ⟨a1, r1⟩ <;> rw [hU1] at h
        · simp at h
        · simp only [Except.ok.injEq, Prod.mk.injEq] at h
          obtain ⟨-, h2⟩ := h
          subst h2
          have k1 := readU64_len r a1 r1 hU1
          omega
      · simp at h
    simp only [List.length_cons]
    omega

theorem deserialize_badTag (t : Nat) (r : List Nat) (ht : 12 < t) :
    Instruction.deserialize (t :: r) = .error .invalidData := by
  simp only [Instruction.deserialize]
  split
  all_goals first
    | rfl
    | omega

theorem deserializeCode_ne_eof_aux (n : Nat) :
    ∀ (l : List Nat), l.length ≤ n → deserializeCode l ≠ Except.error DecErr.eof := by
  induction n with
  | zero =>
    intro l hl
    have hnil : l = [] := List.length_eq_zero.mp (Nat.le_zero.mp hl)
    subst hnil
    rw [deserializeCode_err [] .eof rfl]
    simp
  | succ n ih =>
    intro l hl
    rcases hD : Instruction.deserialize l with e | ⟨i, rest⟩
    · rw [deserializeCode_err l e hD]
      cases e <;> simp
    · rw [deserializeCode_ok l i rest hD]
      have hlen := deserialize_length l i rest hD
      have hrest := ih rest (by omega)
      rcases hC : deserializeCode rest with e2 | instrs
      · cases e2
        · exact absurd hC hrest
        · simp
      · simp
/-! ## Claim theorems: serialization -/

/-- C2: for every instruction of every opcode (numeric operands in `u64`
range, `OutStr` carrying an arbitrary valid UTF-8 string, and the
zero-operand `In` and `InByte`), deserializing the bytes produced by
serializing it yields exactly the instruction back, with the stream
exhausted: `decode(encode(i)) = i`. -/
theorem instruction_roundtrip (i : Instruction) (hv : i.valid) :
    Instruction.deserialize i.serialize = .ok (i, []) := by
  have h := deserialize_serialize i [] hv
  simpa using h

theorem instruction_roundtrip_witness :
    Instruction.deserialize (Instruction.OutStr [72, 105]).serialize =
      .ok (.OutStr [72, 105], []) :=
  instruction_roundtrip (.OutStr [72, 105]) (by decide)

/-- C10: for every list of instructions (including the empty list),
decoding the concatenation of records produced by `serialize_code` returns
exactly that list: `deserialize_code(serialize_code(p)) = Ok(p)`; in
particular the empty byte input decodes to the empty program. -/
theorem program_roundtrip (p : List Instruction) (hv : ∀ i ∈ p, i.valid) :
    deserializeCode (serializeCode p) = .ok p := by
  induction p with
  | nil =>
    rw [show serializeCode [] = [] from rfl, deserializeCode_err [] .eof rfl]
  | cons i p ih =>
    have hvi : i.valid := hv i (by simp)
    have hvp : ∀ j ∈ p, j.valid := fun j hj => hv j (by simp [hj])
    rw [show serializeCode (i :: p) = i.serialize ++ serializeCode p from rfl,
      deserializeCode_ok _ i (serializeCode p) (deserialize_serialize i _ hvi), ih hvp]

theorem program_roundtrip_witness :
    deserializeCode
        (serializeCode [Instruction.InByte, Instruction.OutByte 0, Instruction.Jmp 0]) =
      .ok [Instruction.InByte, Instruction.OutByte 0, Instruction.Jmp 0] :=
  program_roundtrip _ (by decide)

/-- C4 counterexample: the byte stream `[0]` is a `Push` record truncated in
the middle of its 8-byte operand field, yet `deserialize_code` succeeds with
the empty program instead of failing with a `FormatError` (`InvalidData`). -/
theorem decode_truncation_counterexample :
    deserializeCode [0] = .ok [] ∧ deserializeCode [0] ≠ .error .invalidData := by
  have h : Instruction.deserialize [0] = .error .eof := by rfl
  rw [deserializeCode_err [0] .eof h]
  exact ⟨rfl, by simp⟩

/-- C4 (amended): decoding a program never fails because the stream ran out —
exhaustion at a tag-byte boundary or in the middle of a record both end
decoding successfully with the records fully decoded so far — and an
unrecognized tag byte yields a `FormatError` (`InvalidData`). -/
theorem decode_end_conditions (l : List Nat) :
    deserializeCode l ≠ .error .eof ∧
      (∀ t r, l = t :: r → 12 < t → deserializeCode l = .error .invalidData) := by
  refine ⟨deserializeCode_ne_eof_aux l.length l le_rfl, ?_⟩
  intro t r hl ht
  subst hl
  rw [deserializeCode_err (t :: r) .invalidData (deserialize_badTag t r ht)]

theorem decode_end_conditions_witness :
    deserializeCode [13] = .error .invalidData :=
  (decode_end_conditions [13]).2 13 [] rfl (by decide)

/-! ## Claim theorems: execution engine -/

/-- C1: for every instruction the machine executes successfully, a taken
`Gt` or `Eq` branch and any `Jmp` set the program counter to the
instruction's absolute target operand with no post-instruction increment
for that step, and in every other case (a not-taken branch or any
non-branch instruction) the program counter is exactly one greater after
execution than before. -/
theorem pc_update_rule (i : Instruction) (stack : List Nat) (pc : Nat) (input : List Nat)
    (stack2 : List Nat) (pc2 : Nat) (input2 out2 : List Nat)
    (h : i.execute stack pc input = .ok stack2 pc2 input2 out2) :
    pc2 = (branchTarget i stack).getD (pc + 1) := by
  cases i <;>
    simp only [Instruction.execute, branchTarget] at h ⊢ <;>
    (repeat' split at h) <;>
    first
      | exact ExecOut.noConfusion h
      | (injection h with h1 h2 h3 h4
         subst h2
         simp_all
         done)
      | (injection h with h1 h2 h3 h4
         subst h2
         rw [if_neg (by omega)]
         simp)

theorem pc_update_rule_witness :
    (5 : Nat) = (branchTarget (Instruction.Jmp 5) []).getD (0 + 1) :=
  pc_update_rule (Instruction.Jmp 5) [] 0 [] [] 5 [] [] rfl

theorem readLineBytes_append (input : List Nat) :
    (readLineBytes input).1 ++ (readLineBytes input).2 = input := by
  induction input with
  | nil => rfl
  | cons b r ih =>
    by_cases hb : b = 10
    · simp [readLineBytes, hb]
    · simp [readLineBytes, hb, ih]

/-- C9: the two read modes consume the one input stream sequentially
without losing or duplicating bytes: a successful `In` consumes exactly the
first line (through its terminator, `readLineBytes`), leaving precisely the
remainder; a successful `InByte` consumes exactly the next single byte; and
every other instruction leaves the input untouched. -/
theorem input_stream_discipline (i : Instruction) (stack : List Nat) (pc : Nat)
    (input stack2 : List Nat) (pc2 : Nat) (input2 out2 : List Nat)
    (h : i.execute stack pc input = .ok stack2 pc2 input2 out2) :
    (i = .In →
      (readLineBytes input).1 ≠ [] ∧ input2 = (readLineBytes input).2 ∧
        (readLineBytes input).1 ++ input2 = input) ∧
    (i = .InByte → ∃ b, input = b :: input2) ∧
    (i ≠ .In → i ≠ .InByte → input2 = input) := by
  cases i
  case In =>
    simp only [Instruction.execute] at h
    by_cases hnil : (readLineBytes input).1 = []
    · rw [if_pos hnil] at h
      exact ExecOut.noConfusion h
    · rw [if_neg hnil] at h
      by_cases hv : utf8Valid (readLineBytes input).1 = true
      · rw [if_pos hv] at h
        rcases hP : parseU64 (stripLineEnding (readLineBytes input).1) with _ | v <;>
          rw [hP] at h
        · exact ExecOut.noConfusion h
        · injection h with h1 h2 h3 h4
          subst h3
          exact ⟨fun _ => ⟨hnil, rfl, readLineBytes_append input⟩,
            fun hEq => Instruction.noConfusion hEq, fun hne _ => absurd rfl hne⟩
      · rw [if_neg hv] at h
        exact ExecOut.noConfusion h
  case InByte =>
    simp only [Instruction.execute] at h
    cases input with
    | nil => exact ExecOut.noConfusion h
    | cons b rest =>
      injection h with h1 h2 h3 h4
      subst h3
      exact ⟨fun hEq => Instruction.noConfusion hEq, fun _ => ⟨b, rfl⟩,
        fun _ hne => absurd rfl hne⟩
  all_goals
    simp only [Instruction.execute] at h
  all_goals
    (repeat' split at h)
  all_goals
    first
      | exact ExecOut.noConfusion h
      | (injection h with h1 h2 h3 h4
         subst h3
         exact ⟨fun hEq => Instruction.noConfusion hEq, fun hEq => Instruction.noConfusion hEq,
           fun _ _ => rfl⟩)

theorem input_stream_discipline_witness :
    (readLineBytes [52, 50, 10, 7]).1 ≠ [] ∧
      ([7] : List Nat) = (readLineBytes [52, 50, 10, 7]).2 ∧
      (readLineBytes [52, 50, 10, 7]).1 ++ [7] = [52, 50, 10, 7] :=
  (input_stream_discipline Instruction.In [] 0 [52, 50, 10, 7] [42] 1 [7] []
    (by rfl)).1 rfl

theorem eraseIdx_swap (s : List Nat) (r l : Nat) (hrl : r < l) :
    (s.eraseIdx l).eraseIdx r = (s.eraseIdx r).eraseIdx (l - 1) := by
  induction s generalizing r l with
  | nil => simp [List.eraseIdx]
  | cons x xs ih =>
    cases l with
    | zero => omega
    | succ l2 =>
      cases r with
      | zero => simp [List.eraseIdx]
      | succ r2 =>
        cases l2 with
        | zero => omega
        | succ l3 =>
          simp only [List.eraseIdx, Nat.add_sub_cancel]
          rw [ih r2 (l3 + 1) (by omega)]
          simp

/-- C3 counterexample: on the stack `[5]`, both offsets of `Add(0, 0)`
resolve to the valid absolute index 0, yet execution panics (the second
`Vec::remove` is out of bounds) instead of producing a stack one element
shorter. -/
theorem add_same_offset_counterexample :
    0 < ([5] : List Nat).length ∧
      Instruction.execute (.Add 0 0) [5] 0 [] = ExecOut.panicked := ⟨by decide, by rfl⟩

/-- C3 (amended): for every stack on which the two offsets of `Add` resolve
to valid and distinct absolute indices, execution captures the two addressed
values, removes exactly the two addressed elements (equivalently: the lower
absolute index first, then the other index adjusted down by one if it was
the greater, `removeTwoSpec`), and pushes their sum (mod `2^64`); the net
stack length change is exactly -1, adjacent or not.  (When the two offsets
coincide the code removes an unaddressed element or panics, so the claim is
restricted to distinct indices.) -/
theorem add_two_removals (stack : List Nat) (a b pc : Nat) (input : List Nat)
    (ha : a < stack.length) (hb : b < stack.length) (hab : a ≠ b) :
    Instruction.execute (.Add a b) stack pc input =
      .ok (removeTwoSpec stack (stack.length - 1 - a) (stack.length - 1 - b) ++
            [(stack.getD (stack.length - 1 - a) 0 + stack.getD (stack.length - 1 - b) 0)
              % 2 ^ 64])
        (pc + 1) input [] ∧
      (removeTwoSpec stack (stack.length - 1 - a) (stack.length - 1 - b) ++
          [(stack.getD (stack.length - 1 - a) 0 + stack.getD (stack.length - 1 - b) 0)
            % 2 ^ 64]).length
        = stack.length - 1 := by
  have hlen1 : (stack.eraseIdx (stack.length - 1 - a)).length + 1 = stack.length :=
    List.length_eraseIdx_add_one (by omega)
  constructor
  · simp only [Instruction.execute]
    rw [if_pos ⟨ha, hb⟩]
    rcases Nat.lt_trichotomy a b with hab2 | heq | hab2
    · have hlr : ¬ (stack.length - 1 - a < stack.length - 1 - b) := by omega
      rw [if_neg hlr]
      have hbound : stack.length - 1 - b - 0 < (stack.eraseIdx (stack.length - 1 - a)).length := by
        omega
      rw [if_pos hbound]
      have hmm : removeTwoSpec stack (stack.length - 1 - a) (stack.length - 1 - b) =
          (stack.eraseIdx (stack.length - 1 - a)).eraseIdx (stack.length - 1 - b - 0) := by
        rw [removeTwoSpec]
        have hmin : min (stack.length - 1 - a) (stack.length - 1 - b) = stack.length - 1 - b := by
          omega
        have hmax : max (stack.length - 1 - a) (stack.length - 1 - b) = stack.length - 1 - a := by
          omega
        rw [hmin, hmax]
        simp only [Nat.sub_zero]
        rw [eraseIdx_swap stack (stack.length - 1 - b) (stack.length - 1 - a) (by omega)]
      rw [hmm]
    · exact absurd heq hab
    · have hlr : stack.length - 1 - a < stack.length - 1 - b := by omega
      rw [if_pos hlr]
      have hbound : stack.length - 1 - b - 1 < (stack.eraseIdx (stack.length - 1 - a)).length := by
        omega
      rw [if_pos hbound]
      have hmm : removeTwoSpec stack (stack.length - 1 - a) (stack.length - 1 - b) =
          (stack.eraseIdx (stack.length - 1 - a)).eraseIdx (stack.length - 1 - b - 1) := by
        rw [removeTwoSpec]
        have hmin : min (stack.length - 1 - a) (stack.length - 1 - b) = stack.length - 1 - a := by
          omega
        have hmax : max (stack.length - 1 - a) (stack.length - 1 - b) = stack.length - 1 - b := by
          omega
        rw [hmin, hmax]
      rw [hmm]
  · have h1 : min (stack.length - 1 - a) (stack.length - 1 - b) < stack.length := by omega
    have hmaxpos : 0 < max (stack.length - 1 - a) (stack.length - 1 - b) := by omega
    have h2 : (stack.eraseIdx (min (stack.length - 1 - a) (stack.length - 1 - b))).length + 1 =
        stack.length := List.length_eraseIdx_add_one h1
    have h3 : max (stack.length - 1 - a) (stack.length - 1 - b) - 1 <
        (stack.eraseIdx (min (stack.length - 1 - a) (stack.length - 1 - b))).length := by
      omega
    have h4 := List.length_eraseIdx_add_one h3
    simp only [removeTwoSpec, List.length_append, List.length_cons, List.length_nil]
    omega

theorem add_two_removals_witness :
    Instruction.execute (.Add 0 1) [2, 3] 0 [] = ExecOut.ok [5] 1 [] [] ∧
      ([5] : List Nat).length = ([2, 3] : List Nat).length - 1 := by
  have h := add_two_removals [2, 3] 0 1 0 [] (by decide) (by decide) (by decide)
  refine ⟨?_, by decide⟩
  rw [h.1]
  rfl

/-- C5: the spec defines end-of-input on `In` and `InByte` as a clean
successful halt, and the run loop's `UnexpectedEof => break` together with
`InByte`'s `read_exact` implement exactly that for `InByte`; but `In` calls
`input.lines().next().unwrap()`, and at end of input `lines().next()` is
`None`, so the `unwrap` panics instead of halting cleanly: running `[In]`
on empty input panics while running `[InByte]` on empty input returns
success. -/
theorem in_eof_clean_halt_bug :
    runFuel 2 [Instruction.In] [] 0 [] [] = RunOut.panicked ∧
      runFuel 2 [Instruction.InByte] [] 0 [] [] = RunOut.ok [] 0 [] [] := ⟨by rfl, by rfl⟩

/-- C6 counterexample: with input line "abc", the run of `[In]` aborts with
a panic (`parse().unwrap()`), not with an error result returned to the
caller. -/
theorem in_parse_error_counterexample :
    runFuel 2 [Instruction.In] [] 0 [97, 98, 99, 10] [] = RunOut.panicked ∧
      runFuel 2 [Instruction.In] [] 0 [97, 98, 99, 10] [] ≠ RunOut.ioErr := ⟨by rfl, by decide⟩

/-- C6 (amended): for every input line that is valid UTF-8 but does not
parse as an unsigned 64-bit decimal, executing `In` panics (aborting the
process at `parse().unwrap()`) rather than returning a ParseError as the
run's error result. -/
theorem in_parse_failure_panics (stack : List Nat) (pc : Nat) (input : List Nat)
    (hnil : (readLineBytes input).1 ≠ [])
    (hv : utf8Valid (readLineBytes input).1 = true)
    (hp : parseU64 (stripLineEnding (readLineBytes input).1) = none) :
    Instruction.execute .In stack pc input = ExecOut.panicked := by
  simp only [Instruction.execute]
  rw [if_neg hnil, if_pos hv, hp]

theorem in_parse_failure_panics_witness :
    Instruction.execute .In [] 0 [97, 98, 99, 10] = ExecOut.panicked :=
  in_parse_failure_panics [] 0 [97, 98, 99, 10] (by decide) (by decide) (by decide)

/-- C7 counterexample: `Out(0)` on the empty stack makes the run panic (the
offset arithmetic and indexing abort), not fail with a BoundsError error
result surfaced to the caller. -/
theorem out_bounds_counterexample :
    runFuel 2 [Instruction.Out 0] [] 0 [] [] = RunOut.panicked ∧
      runFuel 2 [Instruction.Out 0] [] 0 [] [] ≠ RunOut.ioErr := ⟨by rfl, by decide⟩

/-- C7 (amended): for every stack and offset `p ≥ stack.length`, executing
`Out(p)` panics — the resolved index never silently wraps around to read a
wrong element and no normal value is produced, but the failure is a panic
(process abort), not a BoundsError error result. -/
theorem out_of_range_out_panics (stack : List Nat) (p pc : Nat) (input : List Nat)
    (hp : stack.length ≤ p) :
    Instruction.execute (.Out p) stack pc input = ExecOut.panicked := by
  simp only [Instruction.execute]
  rw [if_neg (by omega)]

theorem out_of_range_out_panics_witness :
    Instruction.execute (.Out 0) [] 0 [] = ExecOut.panicked :=
  out_of_range_out_panics [] 0 0 [] (by decide)

/-- C8 counterexample: `OutByte(0)` on stack `[256]` makes the run panic
(`u8::try_from(..).unwrap()`), not fail with an ArithmeticError error
result surfaced to the caller. -/
theorem outbyte_overflow_counterexample :
    runFuel 2 [Instruction.OutByte 0] [256] 0 [] [] = RunOut.panicked ∧
      runFuel 2 [Instruction.OutByte 0] [256] 0 [] [] ≠ RunOut.ioErr := ⟨by rfl, by decide⟩

/-- C8 (amended): for every stack in which offset `p` resolves to a valid
index, `OutByte(p)` writes the single raw byte `stack[p]` to the output
when `stack[p] ≤ 255`, and panics (aborting the run at
`u8::try_from(..).unwrap()`) when `stack[p] > 255`, rather than returning
an ArithmeticError error result. -/
theorem outbyte_range_check (stack : List Nat) (p pc : Nat) (input : List Nat)
    (hp : p < stack.length) :
    (stack.getD (stack.length - 1 - p) 0 ≤ 255 →
        Instruction.execute (.OutByte p) stack pc input =
          ExecOut.ok stack (pc + 1) input [stack.getD (stack.length - 1 - p) 0]) ∧
      (255 < stack.getD (stack.length - 1 - p) 0 →
        Instruction.execute (.OutByte p) stack pc input = ExecOut.panicked) := by
  constructor <;> intro hv <;> simp only [Instruction.execute] <;> rw [if_pos hp]
  · rw [if_pos hv]
  · rw [if_neg (by omega)]

theorem outbyte_range_check_witness :
    Instruction.execute (.OutByte 0) [65] 0 [] = ExecOut.ok [65] 1 [] [65] ∧
      Instruction.execute (.OutByte 0) [256] 0 [] = ExecOut.panicked := by
  have h1 := (outbyte_range_check [65] 0 0 [] (by decide)).1 (by decide)
  have h2 := (outbyte_range_check [256] 0 0 [] (by decide)).2 (by decide)
  exact ⟨h1, h2⟩

end BytecodeVM
